import Mathlib

/-!
Verification of the symbolic strategy query engine of `src/lib/bdd.py`
(class `BDDStrategy`).

The pycudd collaborator provides canonical (hash-consed) Boolean functions,
so two BDD handles are identical exactly when the functions they denote are
semantically equal, and a BDD is truthy exactly when it is not the constant
false function.  We therefore embed BDDs extensionally: a Boolean function
over `n` variables is a map from total assignments to `Bool`.  The operators
`&`, `|`, `~` of pycudd become the pointwise operations, `mgr.ReadOne()` is
the constant-true function, and Python truthiness of a BDD is the decidable
non-falseness test.
-/

namespace BDDStrategy

/-- A total assignment to the `n` BDD variables. -/
abbrev Assignment (n : Nat) := Fin n → Bool

/-- Semantic denotation of a pycudd BDD over `n` variables. -/
abbrev BFunc (n : Nat) := Assignment n → Bool

/-- `mgr.IthVar(i)`: the elementary function "variable `i` is true". -/
def bvar {n : Nat} (i : Fin n) : BFunc n := fun a => a i

/-- pycudd `&` (conjunction), pointwise. -/
def band {n : Nat} (F G : BFunc n) : BFunc n := fun a => F a && G a

/-- pycudd `|` (disjunction), pointwise. -/
def bor {n : Nat} (F G : BFunc n) : BFunc n := fun a => F a || G a

/-- pycudd `~` (negation), pointwise. -/
def bnot {n : Nat} (F : BFunc n) : BFunc n := fun a => !(F a)

/-- `mgr.ReadOne()`: the constant-true BDD. -/
def btrue {n : Nat} : BFunc n := fun _ => true

/-- The constant-false BDD (logical zero). -/
def bfalse {n : Nat} : BFunc n := fun _ => false

/-- Python truthiness of a pycudd BDD: a BDD tests true iff it is not the
constant-false function. -/
def nonFalse {n : Nat} (F : BFunc n) : Bool := decide (∃ a, F a = true)

/-- Number of satisfying assignments of `F`; used only as a termination
measure for the `satAll` loop. -/
def satCount {n : Nat} (F : BFunc n) : Nat :=
  (Finset.univ.filter (fun a : Assignment n => F a = true)).card

/-- Two assignments agree on every variable of the list `vs`. -/
def agreeOn {n : Nat} (vs : List (Fin n)) (a b : Assignment n) : Prop :=
  ∀ v ∈ vs, a v = b v

instance {n : Nat} (vs : List (Fin n)) (a b : Assignment n) :
    Decidable (agreeOn vs a b) :=
  inferInstanceAs (Decidable (∀ v ∈ vs, a v = b v))

/-- `F` depends only on the variables in `vs`: it cannot distinguish two
assignments that agree on `vs`. -/
def DependsOnlyOn {n : Nat} (F : BFunc n) (vs : List (Fin n)) : Prop :=
  ∀ a b, agreeOn vs a b → F a = F b

instance {n : Nat} (F : BFunc n) (vs : List (Fin n)) : Decidable (DependsOnlyOn F vs) :=
  inferInstanceAs (Decidable (∀ a b, agreeOn vs a b → F a = F b))

/-- The cube (conjunction of literals) forcing each variable of `vs` to the
value `σ` gives it. -/
def cubeOf {n : Nat} (vs : List (Fin n)) (σ : Assignment n) : BFunc n :=
  fun a => decide (agreeOn vs a σ)

/-- `G` is a single total assignment over `vs`: for some assignment `σ`,
`G` holds exactly on the assignments agreeing with `σ` on `vs`. -/
def IsCubeOver {n : Nat} (G : BFunc n) (vs : List (Fin n)) : Prop :=
  ∃ σ : Assignment n, ∀ a, (G a = true ↔ agreeOn vs a σ)

instance {n : Nat} (G : BFunc n) (vs : List (Fin n)) :
    Decidable (IsCubeOver G vs) :=
  inferInstanceAs (Decidable (∃ σ : Assignment n, ∀ a, (G a = true ↔ agreeOn vs a σ)))

/-- The projection of `F` onto the variables `vs` (existential quantification
of everything outside `vs`): `a` satisfies the projection iff some assignment
agreeing with `a` on `vs` satisfies `F`. -/
def projectOnto {n : Nat} (F : BFunc n) (vs : List (Fin n)) : BFunc n :=
  fun a => decide (∃ b, agreeOn vs b a ∧ F b = true)

/-- Disjunction of a list of BDDs. -/
def bigOr {n : Nat} : List (BFunc n) → BFunc n
  | [] => bfalse
  | F :: rest => bor F (bigOr rest)

/-- Normalize an assignment to the variables in `vs` (everything outside `vs`
set to `false`); canonical representative of a `vs`-pattern. -/
def normPat {n : Nat} (vs : List (Fin n)) (a : Assignment n) : Assignment n :=
  fun v => if v ∈ vs then a v else false

/-- The set of `vs`-patterns realized by satisfying assignments of `F`. -/
def patSet {n : Nat} (F : BFunc n) (vs : List (Fin n)) : Finset (Assignment n) :=
  (Finset.univ.filter (fun a : Assignment n => F a = true)).image (normPat vs)

/-- `BDDStrategy.satOne` (`src/lib/bdd.py` lines 118-126): for each variable
in order, keep `bdd & ~v` when that is non-false, otherwise keep `bdd & v`.
The Python loop threads `bdd` through the iterations; the recursion below is
that exact fold. -/
def satOne {n : Nat} (F : BFunc n) : List (Fin n) → BFunc n
  | [] => F
  | v :: rest =>
    if nonFalse (band F (bnot (bvar v))) = true then
      satOne (band F (bnot (bvar v))) rest
    else
      satOne (band F (bvar v)) rest

/-- Fuel-indexed version of the `satAll` loop: `while bdd: one_sat =
satOne(bdd, var_names); yield one_sat; bdd &= ~one_sat`.  The fuel only
bounds the number of iterations; `satAll` below supplies enough fuel for the
loop to run to completion, and `satAll_eq` proves that the result satisfies
the loop's defining equation. -/
def satAllFuel {n : Nat} : Nat → BFunc n → List (Fin n) → List (BFunc n)
  | 0, _, _ => []
  | fuel + 1, F, vs =>
    if nonFalse F = true then
      satOne F vs :: satAllFuel fuel (band F (bnot (satOne F vs))) vs
    else []

/-- `BDDStrategy.satAll` (`src/lib/bdd.py` lines 128-132): enumerate cubes of
`F` over `vs` by repeatedly extracting one with `satOne` and conjoining its
negation.  Each iteration removes at least one satisfying assignment, so
`satCount F + 1` units of fuel always suffice. -/
def satAll {n : Nat} (F : BFunc n) (vs : List (Fin n)) : List (BFunc n) :=
  satAllFuel (satCount F + 1) F vs

/-- Python exceptions that the embedded code can raise, together with the
error names the specification's taxonomy postulates (the latter are in the
observation language but are never produced by the code, which defines no
such exception classes). -/
inductive PyExc : Type
  | indexError
  | typeError
  | keyError
  | invalidPhaseError
  | invalidJusticeIndexError
  | malformedStrategyFileError
  | emptyInputError
deriving DecidableEq, Repr

instance {ε α : Type} [DecidableEq ε] [DecidableEq α] : DecidableEq (Except ε α)
  | .ok a, .ok b =>
    if h : a = b then isTrue (by rw [h]) else isFalse (fun hh => by cases hh; exact h rfl)
  | .ok _, .error _ => isFalse (fun hh => by cases hh)
  | .error _, .ok _ => isFalse (fun hh => by cases hh)
  | .error e, .error e' =>
    if h : e = e' then isTrue (by rw [h]) else isFalse (fun hh => by cases hh; exact h rfl)

/-- Bit `i` (least significant first) of the binary representation of `jx`. -/
def pyBit (jx i : Nat) : Bool := decide (jx / 2 ^ i % 2 = 1)

/-- Fuel-indexed binary length; structural recursion so the kernel can
evaluate it.  `binLenFuel fuel jx` is the bit length of `jx` whenever
`jx ≤ fuel`. -/
def binLenFuel : Nat → Nat → Nat
  | 0, _ => 0
  | fuel + 1, jx => if jx = 0 then 0 else binLenFuel fuel (jx / 2) + 1

/-- Length of Python's `"{:b}".format(jx)`: the number of binary digits of
`jx`, where `0` is rendered as the one-character string `"0"`. -/
def pyBinLen (jx : Nat) : Nat := if jx = 0 then 1 else binLenFuel jx jx

/-- The character list of `("{:0" + str(k) + "b}").format(jx)[::-1]`, mapped
to booleans: the binary representation of `jx`, zero-padded on the left to
minimum width `k`, then reversed, so position `i` holds bit `i` of `jx`
(least significant bit first).  Python's zero-padding is a minimum width, so
the string length is `max k (pyBinLen jx)`; for positions at or beyond the
bit length of `jx`, both the padded character and `pyBit jx i` are zero. -/
def pyBits (k jx : Nat) : List Bool :=
  (List.range (max k (pyBinLen jx))).map (pyBit jx)

/-- The `for i, bit in enumerate(...)` loop body of `getJxBDD`: conjoin the
literal `jx_vars[i]` or `~jx_vars[i]` according to the bit; Python raises an
uncaught `IndexError` at the first access `self.jx_vars[i]` with `i` out of
range (the `else` branch for a character other than 0/1 is unreachable). -/
def jxLoop {n : Nat} (jxVars : List (Fin n)) :
    List Bool → Nat → BFunc n → Except PyExc (BFunc n)
  | [], _, acc => .ok acc
  | b :: rest, i, acc =>
    match jxVars.get? i with
    | none => .error .indexError
    | some v =>
      jxLoop jxVars rest (i + 1) (band acc (if b then bvar v else bnot (bvar v)))

/-- `BDDStrategy.getJxBDD` (`src/lib/bdd.py` lines 191-201): encode the
justice index `jx` as a conjunction of literals over the justice-bit
variables, bit `i` of `jx` (least significant first) on `jx_vars[i]`.  The
code has no safety check (`# TODO: safety checks`): when `jx` needs more
bits than `len(self.jx_vars)`, the loop walks past the end of `jx_vars`
and raises `IndexError`. -/
def getJxBDD {n : Nat} (jxVars : List (Fin n)) (jx : Nat) : Except PyExc (BFunc n) :=
  jxLoop jxVars (pyBits jxVars.length jx) 0 btrue

/-- Value of a least-significant-bit-first boolean list as a natural
number; decoding counterpart of the justice-cube encoding. -/
def bitsVal : List Bool → Nat
  | [] => 0
  | b :: rest => (if b then 1 else 0) + 2 * bitsVal rest

/-- Decode a justice index from an assignment under the documented mapping:
justice-bit vector index `i` carries bit `i`, least significant first. -/
def decodeJx {n : Nat} (jxVars : List (Fin n)) (a : Assignment n) : Nat :=
  bitsVal (jxVars.map a)

/-- The mutable attributes of a `BDDStrategy` object that `getTransitions`
can observe: the loaded relation, the justice-bit variables, the
strategy-phase variable, and the state collection (of arbitrary type `σ`,
since the `State`/`StateCollection` classes live in the external
`strategy` module). -/
structure BDDMachine (n : Nat) (σ : Type) : Type where
  strategy : BFunc n
  jx_vars : List (Fin n)
  strat_type_var : Fin n
  states : σ

/-- `BDDStrategy.getTransitions` (`src/lib/bdd.py` lines 178-189), with the
object state threaded explicitly.  For phase `Y` the literal is
`~strat_type_var`, for `Z` it is `strat_type_var`; any other token prints a
message and returns `None` (no exception is raised).  The body assigns to no
attribute of `self`, so the machine component of the result is the input
machine.  The caller passes the current state already converted to a cube
(`stateF`). -/
def getTransitions {n : Nat} {σ : Type} (M : BDDMachine n σ) (stateF : BFunc n)
    (jx : Nat) (strat_type : String) :
    Except PyExc (Option (BFunc n)) × BDDMachine n σ :=
  if strat_type = "Y" then
    match getJxBDD M.jx_vars jx with
    | .error e => (.error e, M)
    | .ok j =>
      (.ok (some (band (band (band M.strategy stateF) j) (bnot (bvar M.strat_type_var)))), M)
  else if strat_type = "Z" then
    match getJxBDD M.jx_vars jx with
    | .error e => (.error e, M)
    | .ok j =>
      (.ok (some (band (band (band M.strategy stateF) j) (bvar M.strat_type_var))), M)
  else
    (.ok none, M)

/-- `BDDStrategy.stateListToBDD` (`src/lib/bdd.py` lines 148-150):
`reduce(lambda bdd1, bdd2: bdd1 | bdd2, (stateToBDD(s) for s in state_list))`.
The per-state cube map `stateToBDD` is passed as a parameter because the
`State` class lives in the external `strategy` module.  Python 2's `reduce`
with no initial value raises `TypeError` on an empty sequence and otherwise
left-folds `|` over the cubes. -/
def stateListToBDD {n : Nat} {σ : Type} (stateToBDD : σ → BFunc n)
    (state_list : List σ) : Except PyExc (BFunc n) :=
  match state_list.map stateToBDD with
  | [] => .error .typeError
  | c :: cs => .ok (cs.foldl bor c)

/-- The apostrophe character (code point 39), the prime marker of the
strategy-file variable names. -/
def primeChar : Char := Char.ofNat 39

/-- Python 2 `\d` on a byte string: ASCII decimal digits. -/
def isPyDigit (c : Char) : Bool := 48 ≤ c.toNat && c.toNat ≤ 57

/-- Python 2 `\s` on a byte string: space, tab, newline, carriage return,
form feed, vertical tab. -/
def isPySpace (c : Char) : Bool :=
  c.toNat = 32 || c.toNat = 9 || c.toNat = 10 || c.toNat = 13 || c.toNat = 12 || c.toNat = 11

/-- Python 2 `\w` on a byte string: ASCII letters, digits and underscore. -/
def isPyWord (c : Char) : Bool :=
  isPyDigit c || (65 ≤ c.toNat && c.toNat ≤ 90) || (97 ≤ c.toNat && c.toNat ≤ 122) || c.toNat = 95

/-- `int(...)` on the matched digit group. -/
def digitsToNat (ds : List Char) : Nat :=
  ds.foldl (fun acc c => 10 * acc + (c.toNat - 48)) 0

/-- `re.match(r"^#\s*(?P<num>\d+)\s*:\s*<(?P<name>\w+'?)>", line)` from
`BDDStrategy.loadFromFile` (`src/lib/bdd.py` line 71), returning the two
captured groups.  The pattern is anchored at the start of the line; each
`\s*`/`\d+`/`\w+` piece borders characters outside its own class, so greedy
maximal munch is equivalent to the backtracking regex semantics. -/
def matchVarDef (line : String) : Option (Nat × String) :=
  match line.toList with
  | '#' :: r0 =>
    let r1 := r0.dropWhile isPySpace
    let digits := r1.takeWhile isPyDigit
    if digits = [] then none
    else
      match (r1.dropWhile isPyDigit).dropWhile isPySpace with
      | ':' :: r2 =>
        match r2.dropWhile isPySpace with
        | '<' :: r3 =>
          let word := r3.takeWhile isPyWord
          if word = [] then none
          else
            match r3.dropWhile isPyWord with
            | c :: '>' :: _ =>
              if c = primeChar then some (digitsToNat digits, String.mk (word ++ [primeChar]))
              else none
            | '>' :: _ => some (digitsToNat digits, String.mk word)
            | _ => none
        | _ => none
      | _ => none
  | _ => none

/-- The character list of `"region_b"`, target of the compatibility rewrite. -/
def regionChars : List Char := "region_b".toList

/-- `re.sub(r"^bit(\d+)('?)$", r'region_b\1\2', varname)`
(`src/lib/bdd.py` line 84): a full-line match `bit<digits>` with an optional
trailing prime is rewritten to `region_b<digits>` with the prime preserved;
any other name is returned unchanged. -/
def rewriteBitName (name : String) : String :=
  match name.toList with
  | 'b' :: 'i' :: 't' :: rest =>
    let ds := rest.takeWhile isPyDigit
    if ds = [] then name
    else
      match rest.dropWhile isPyDigit with
      | [] => String.mk (regionChars ++ ds)
      | [c] => if c = primeChar then String.mk (regionChars ++ ds ++ [primeChar]) else name
      | _ => name
  | _ => name

/-- The variable-definition loop of `BDDStrategy.loadFromFile`
(`src/lib/bdd.py` lines 70-96): classify lines one by one, stopping at the
first line (blank lines included) that fails to match the pattern; every
line after that first non-matching line is never read.  Each matched name
goes through the `bit<N>` compatibility rewrite before being recorded. -/
def parseVarDefs : List String → List (Nat × String)
  | [] => []
  | line :: rest =>
    match matchVarDef line with
    | none => []
    | some (num, name) => (num, rewriteBitName name) :: parseVarDefs rest

/-- The metadata section header sought by `loadFromFile`
(`src/lib/bdd.py` line 66). -/
def headerLine : String := "# Variable names:"

/-- `pat` is a prefix of `s` (Python's `str.startswith`, over char lists). -/
def leadsWith : List Char → List Char → Bool
  | [], _ => true
  | _ :: _, [] => false
  | c :: cs, d :: ds => c = d && leadsWith cs ds

/-- `line.startswith("# Variable names:")`, the guard of the header-seek
loop of `loadFromFile` (`src/lib/bdd.py` line 66). -/
def isHeaderLine (line : String) : Bool := leadsWith headerLine.toList line.toList

/-- `f.readline()` semantics at call number `i` (0-based): the `i`-th line
while lines remain, and the empty string forever after end-of-stream. -/
def readlineAt (lines : List String) (i : Nat) : String :=
  (lines.get? i).getD ""

/-- Outcome of the metadata phase of `loadFromFile`.  `hang` models the
non-terminating execution of `while not line.startswith("# Variable
names:"): line = f.readline()` when no line of the file starts with the
header: at end-of-stream `readline` returns `""` on every call, the guard
never becomes true, and the loop runs forever.  `malformedError` is the
outcome the specification postulates; the code contains no such exception
class and no path producing it. -/
inductive LoadOutcome (α : Type) : Type
  | ok (a : α)
  | malformedError
  | hang
deriving DecidableEq

/-- The metadata phase of `BDDStrategy.loadFromFile` (`src/lib/bdd.py`
lines 63-96): seek the first line starting with `# Variable names:`, then
parse variable definitions from the following lines.  If no line matches,
the seek loop never terminates (`hang`). -/
def loadFromFileMeta (lines : List String) : LoadOutcome (List (Nat × String)) :=
  match (List.range lines.length).find? (fun i => isHeaderLine (readlineAt lines i)) with
  | some i => .ok (parseVarDefs (lines.drop (i + 1)))
  | none => .hang

/-- Concrete machine used by the claim witnesses: relation `true`, one
justice bit on variable 0, phase bit on variable 1, an opaque state
collection. -/
def exMachine : BDDMachine 2 Nat := ⟨btrue, [0], 1, 0⟩

/-- The phase token selecting holding moves. -/
def phaseY : String := "Y"

/-- The phase token selecting progress moves. -/
def phaseZ : String := "Z"

/-- An invalid phase token, used by the witnesses. -/
def phaseQ : String := "Q"

/-- The justice cube produced by `getJxBDD [0] 0` on `exMachine`. -/
def exJ : BFunc 2 := band btrue (bnot (bvar 0))

/-- Example metadata lines for the parser witnesses. -/
def exLine0 : String := "# 0 : <p>"

def exLine1 : String := "# 1 : <q>"

def blankLine : String := ""

def exNoHeader : String := "foo"

/-! ### Basic lemmas about the Boolean-function model -/

theorem nonFalse_iff {n : Nat} {F : BFunc n} : nonFalse F = true ↔ ∃ a, F a = true := by
  simp [nonFalse]

theorem all_false_of_not_nonFalse {n : Nat} {F : BFunc n}
    (h : ¬ nonFalse F = true) : ∀ a, F a = false := by
  intro a
  cases ha : F a
  · rfl
  · exact absurd (nonFalse_iff.mpr ⟨a, ha⟩) h

theorem cubeOf_cons {n : Nat} (v : Fin n) (rest : List (Fin n)) (σ a : Assignment n) :
    cubeOf (v :: rest) σ a = (decide (a v = σ v) && cubeOf rest σ a) := by
  by_cases h1 : a v = σ v <;> by_cases h2 : agreeOn rest a σ <;>
    simp [cubeOf, agreeOn, List.forall_mem_cons, h1, h2]

theorem cubeOf_ext {n : Nat} (vs : List (Fin n)) (σ τ : Assignment n)
    (h : ∀ u ∈ vs, σ u = τ u) : cubeOf vs σ = cubeOf vs τ := by
  funext a
  apply decide_eq_decide.mpr
  constructor
  · intro hag u hu; rw [hag u hu, h u hu]
  · intro hag u hu; rw [hag u hu, h u hu]

/-! ### Lemmas about `satOne` -/

theorem satOne_implies {n : Nat} (vs : List (Fin n)) : ∀ (F : BFunc n) (a : Assignment n),
    satOne F vs a = true → F a = true := by
  induction vs with
  | nil => intro F a h; exact h
  | cons v rest ih =>
    intro F a h
    rw [satOne] at h
    by_cases hb : nonFalse (band F (bnot (bvar v))) = true
    · rw [if_pos hb] at h
      have h2 := ih _ _ h
      simp only [band, Bool.and_eq_true] at h2
      exact h2.1
    · rw [if_neg hb] at h
      have h2 := ih _ _ h
      simp only [band, Bool.and_eq_true] at h2
      exact h2.1

theorem satOne_nonFalse {n : Nat} (vs : List (Fin n)) : ∀ F : BFunc n,
    nonFalse F = true → nonFalse (satOne F vs) = true := by
  induction vs with
  | nil => intro F h; exact h
  | cons v rest ih =>
    intro F h
    rw [satOne]
    by_cases hb : nonFalse (band F (bnot (bvar v))) = true
    · rw [if_pos hb]; exact ih _ hb
    · rw [if_neg hb]
      apply ih
      obtain ⟨a, ha⟩ := nonFalse_iff.mp h
      have hv : a v = true := by
        cases hav : a v
        · exact absurd (nonFalse_iff.mpr ⟨a, by simp [band, bnot, bvar, ha, hav]⟩) hb
        · rfl
      exact nonFalse_iff.mpr ⟨a, by simp [band, bvar, ha, hv]⟩

/-- Structure of `satOne`: the loop conjoins to `F` exactly one literal per
variable of `vs`, i.e. the result is `F` conjoined with the cube of some
total assignment `σ` over `vs`. -/
theorem satOne_structure {n : Nat} (vs : List (Fin n)) : ∀ F : BFunc n,
    ∃ σ, satOne F vs = band F (cubeOf vs σ) := by
  induction vs with
  | nil =>
    intro F
    refine ⟨fun _ => false, ?_⟩
    funext a
    simp [satOne, band, cubeOf, agreeOn]
  | cons v rest ih =>
    intro F
    by_cases hF : nonFalse F = true
    · rw [satOne]
      by_cases hb : nonFalse (band F (bnot (bvar v))) = true
      · rw [if_pos hb]
        obtain ⟨σ', hσ'⟩ := ih (band F (bnot (bvar v)))
        have hforce : v ∈ rest → σ' v = false := by
          intro hv
          cases hcv : σ' v
          · rfl
          · exfalso
            have hnf := satOne_nonFalse rest _ hb
            rw [hσ'] at hnf
            obtain ⟨a, ha⟩ := nonFalse_iff.mp hnf
            simp only [band, bnot, bvar, cubeOf, Bool.and_eq_true, Bool.not_eq_true',
              decide_eq_true_eq] at ha
            obtain ⟨⟨hFa, hav⟩, hagree⟩ := ha
            have hcontra := hagree v hv
            rw [hav, hcv] at hcontra
            exact Bool.false_ne_true hcontra
        refine ⟨Function.update σ' v false, ?_⟩
        rw [hσ']
        funext a
        have hcube : cubeOf rest (Function.update σ' v false) a = cubeOf rest σ' a := by
          rw [cubeOf_ext rest (Function.update σ' v false) σ' ?_]
          intro u hu
          by_cases huv : u = v
          · subst huv
            rw [Function.update_same]
            exact (hforce hu).symm
          · rw [Function.update_noteq huv]
        simp only [band, bnot, bvar]
        rw [cubeOf_cons, hcube, Function.update_same]
        cases a v <;> cases F a <;> cases cubeOf rest σ' a <;> rfl
      · rw [if_neg hb]
        obtain ⟨σ', hσ'⟩ := ih (band F (bvar v))
        have hFv : nonFalse (band F (bvar v)) = true := by
          obtain ⟨a, ha⟩ := nonFalse_iff.mp hF
          have hv : a v = true := by
            cases hav : a v
            · exact absurd (nonFalse_iff.mpr ⟨a, by simp [band, bnot, bvar, ha, hav]⟩) hb
            · rfl
          exact nonFalse_iff.mpr ⟨a, by simp [band, bvar, ha, hv]⟩
        have hforce : v ∈ rest → σ' v = true := by
          intro hv
          cases hcv : σ' v
          · exfalso
            have hnf := satOne_nonFalse rest _ hFv
            rw [hσ'] at hnf
            obtain ⟨a, ha⟩ := nonFalse_iff.mp hnf
            simp only [band, bvar, cubeOf, Bool.and_eq_true, decide_eq_true_eq] at ha
            obtain ⟨⟨hFa, hav⟩, hagree⟩ := ha
            have hcontra := hagree v hv
            rw [hav, hcv] at hcontra
            exact Bool.noConfusion hcontra
          · rfl
        refine ⟨Function.update σ' v true, ?_⟩
        rw [hσ']
        funext a
        have hcube : cubeOf rest (Function.update σ' v true) a = cubeOf rest σ' a := by
          rw [cubeOf_ext rest (Function.update σ' v true) σ' ?_]
          intro u hu
          by_cases huv : u = v
          · subst huv
            rw [Function.update_same]
            exact (hforce hu).symm
          · rw [Function.update_noteq huv]
        simp only [band, bvar]
        rw [cubeOf_cons, hcube, Function.update_same]
        cases a v <;> cases F a <;> cases cubeOf rest σ' a <;> rfl
    · refine ⟨fun _ => false, ?_⟩
      have hFf := all_false_of_not_nonFalse hF
      funext a
      have himp := satOne_implies (v :: rest) F a
      have hlhs : satOne F (v :: rest) a = false := by
        cases hh : satOne F (v :: rest) a
        · rfl
        · rw [hFf a] at himp
          exact absurd (himp hh) Bool.false_ne_true
      rw [hlhs]
      simp [band, hFf a]

/-- `satOne` extracts a cube (total assignment over `vs`) whenever the
function depends only on `vs`. -/
theorem satOne_cube {n : Nat} (F : BFunc n) (vs : List (Fin n))
    (hF : nonFalse F = true) (hdep : DependsOnlyOn F vs) :
    IsCubeOver (satOne F vs) vs := by
  obtain ⟨σ, hσ⟩ := satOne_structure vs F
  obtain ⟨a0, ha0⟩ := nonFalse_iff.mp (satOne_nonFalse vs F hF)
  refine ⟨σ, ?_⟩
  intro a
  rw [hσ]
  rw [hσ] at ha0
  simp only [band, Bool.and_eq_true, cubeOf, decide_eq_true_eq] at ha0 ⊢
  obtain ⟨hFa0, hag0⟩ := ha0
  constructor
  · exact fun h => h.2
  · intro hag
    refine ⟨?_, hag⟩
    have hab : agreeOn vs a a0 := fun v hv => by rw [hag v hv, ← hag0 v hv]
    rw [hdep a a0 hab]
    exact hFa0

/-! ### Lemmas about `satAll` -/

theorem satCount_pos {n : Nat} (F : BFunc n) (h : nonFalse F = true) : 0 < satCount F := by
  obtain ⟨a, ha⟩ := nonFalse_iff.mp h
  apply Finset.card_pos.mpr
  exact ⟨a, by simp [ha]⟩

/-- Each iteration of the `satAll` loop strictly decreases the number of
satisfying assignments: this is the termination argument of the spec. -/
theorem satCount_decrease {n : Nat} (F : BFunc n) (vs : List (Fin n))
    (h : nonFalse F = true) :
    satCount (band F (bnot (satOne F vs))) < satCount F := by
  have hsub : (Finset.univ.filter
        (fun a : Assignment n => band F (bnot (satOne F vs)) a = true)) ⊆
      (Finset.univ.filter (fun a : Assignment n => F a = true)) := by
    intro a ha
    simp only [Finset.mem_filter, Finset.mem_univ, true_and] at ha ⊢
    simp only [band, Bool.and_eq_true] at ha
    exact ha.1
  obtain ⟨a0, ha0⟩ := nonFalse_iff.mp (satOne_nonFalse vs F h)
  simp only [satCount]
  apply Finset.card_lt_card
  rw [Finset.ssubset_iff_of_subset hsub]
  refine ⟨a0, ?_, ?_⟩
  · simp only [Finset.mem_filter, Finset.mem_univ, true_and]
    exact satOne_implies vs F a0 ha0
  · simp only [Finset.mem_filter, Finset.mem_univ, true_and]
    simp [band, bnot, ha0]

/-- The fuel is irrelevant as long as it exceeds the satisfying-assignment
count: `satAllFuel` computes the (unique) result of the loop. -/
theorem satAllFuel_congr {n : Nat} (vs : List (Fin n)) :
    ∀ (k : Nat) (F : BFunc n) (fuel fuel' : Nat),
    satCount F ≤ k → satCount F < fuel → satCount F < fuel' →
    satAllFuel fuel F vs = satAllFuel fuel' F vs := by
  intro k
  induction k with
  | zero =>
    intro F fuel fuel' hk hf hf'
    obtain ⟨f1, rfl⟩ : ∃ f1, fuel = f1 + 1 := ⟨fuel - 1, by omega⟩
    obtain ⟨f2, rfl⟩ : ∃ f2, fuel' = f2 + 1 := ⟨fuel' - 1, by omega⟩
    rw [satAllFuel, satAllFuel]
    by_cases hF : nonFalse F = true
    · exfalso
      have := satCount_pos F hF
      omega
    · rw [if_neg hF, if_neg hF]
  | succ k ih =>
    intro F fuel fuel' hk hf hf'
    obtain ⟨f1, rfl⟩ : ∃ f1, fuel = f1 + 1 := ⟨fuel - 1, by omega⟩
    obtain ⟨f2, rfl⟩ : ∃ f2, fuel' = f2 + 1 := ⟨fuel' - 1, by omega⟩
    rw [satAllFuel, satAllFuel]
    by_cases hF : nonFalse F = true
    · rw [if_pos hF, if_pos hF]
      congr 1
      have hdec := satCount_decrease F vs hF
      exact ih _ f1 f2 (by omega) (by omega) (by omega)
    · rw [if_neg hF, if_neg hF]

/-- `satAll` satisfies the defining equation of the Python loop. -/
theorem satAll_eq {n : Nat} (F : BFunc n) (vs : List (Fin n)) :
    satAll F vs = if nonFalse F = true
      then satOne F vs :: satAll (band F (bnot (satOne F vs))) vs
      else [] := by
  rw [satAll, satAllFuel]
  by_cases hF : nonFalse F = true
  · rw [if_pos hF, if_pos hF, satAll]
    congr 1
    have hdec := satCount_decrease F vs hF
    exact satAllFuel_congr vs (satCount (band F (bnot (satOne F vs)))) _ _ _
      le_rfl (by omega) (Nat.lt_succ_self _)
  · rw [if_neg hF, if_neg hF]

/-- Every cube produced by `satAll F vs` implies `F`. -/
theorem satAll_sound {n : Nat} (vs : List (Fin n)) :
    ∀ (k : Nat) (F : BFunc n), satCount F ≤ k →
    ∀ c ∈ satAll F vs, ∀ a, c a = true → F a = true := by
  intro k
  induction k with
  | zero =>
    intro F hk c hc
    rw [satAll_eq] at hc
    by_cases hF : nonFalse F = true
    · exfalso
      have := satCount_pos F hF
      omega
    · rw [if_neg hF] at hc
      exact absurd hc (List.not_mem_nil c)
  | succ k ih =>
    intro F hk c hc a hca
    rw [satAll_eq] at hc
    by_cases hF : nonFalse F = true
    · rw [if_pos hF] at hc
      rcases List.mem_cons.mp hc with hceq | hcmem
      · subst hceq
        exact satOne_implies vs F a hca
      · have hdec := satCount_decrease F vs hF
        have himp := ih (band F (bnot (satOne F vs))) (by omega) c hcmem a hca
        simp only [band, Bool.and_eq_true] at himp
        exact himp.1
    · rw [if_neg hF] at hc
      exact absurd hc (List.not_mem_nil c)

/-- Every cube produced by `satAll F vs` is non-false. -/
theorem satAll_nonFalse {n : Nat} (vs : List (Fin n)) :
    ∀ (k : Nat) (F : BFunc n), satCount F ≤ k →
    ∀ c ∈ satAll F vs, nonFalse c = true := by
  intro k
  induction k with
  | zero =>
    intro F hk c hc
    rw [satAll_eq] at hc
    by_cases hF : nonFalse F = true
    · exfalso
      have := satCount_pos F hF
      omega
    · rw [if_neg hF] at hc
      exact absurd hc (List.not_mem_nil c)
  | succ k ih =>
    intro F hk c hc
    rw [satAll_eq] at hc
    by_cases hF : nonFalse F = true
    · rw [if_pos hF] at hc
      rcases List.mem_cons.mp hc with hceq | hcmem
      · subst hceq
        exact satOne_nonFalse vs F hF
      · have hdec := satCount_decrease F vs hF
        exact ih (band F (bnot (satOne F vs))) (by omega) c hcmem
    · rw [if_neg hF] at hc
      exact absurd hc (List.not_mem_nil c)

/-- The disjunction of the cubes produced by `satAll F vs` is `F` itself:
the iteration removes exactly the satisfying assignments of the cube it
just yielded. -/
theorem bigOr_satAll {n : Nat} (vs : List (Fin n)) :
    ∀ (k : Nat) (F : BFunc n), satCount F ≤ k → bigOr (satAll F vs) = F := by
  intro k
  induction k with
  | zero =>
    intro F hk
    rw [satAll_eq]
    by_cases hF : nonFalse F = true
    · exfalso
      have := satCount_pos F hF
      omega
    · rw [if_neg hF]
      funext a
      simp [bigOr, bfalse, all_false_of_not_nonFalse hF a]
  | succ k ih =>
    intro F hk
    rw [satAll_eq]
    by_cases hF : nonFalse F = true
    · rw [if_pos hF]
      have hdec := satCount_decrease F vs hF
      have htail := ih (band F (bnot (satOne F vs))) (by omega)
      show bor (satOne F vs) (bigOr (satAll (band F (bnot (satOne F vs))) vs)) = F
      rw [htail]
      funext a
      have himp := satOne_implies vs F a
      simp only [bor, band, bnot]
      cases hc : satOne F vs a
      · simp
      · simp [himp hc]
    · rw [if_neg hF]
      funext a
      simp [bigOr, bfalse, all_false_of_not_nonFalse hF a]

/-- The cubes produced by `satAll F vs` are pairwise disjoint. -/
theorem satAll_pairwise {n : Nat} (vs : List (Fin n)) :
    ∀ (k : Nat) (F : BFunc n), satCount F ≤ k →
    List.Pairwise (fun c d => ∀ a, c a = true → d a = false) (satAll F vs) := by
  intro k
  induction k with
  | zero =>
    intro F hk
    rw [satAll_eq]
    by_cases hF : nonFalse F = true
    · exfalso
      have := satCount_pos F hF
      omega
    · rw [if_neg hF]
      exact List.Pairwise.nil
  | succ k ih =>
    intro F hk
    rw [satAll_eq]
    by_cases hF : nonFalse F = true
    · rw [if_pos hF]
      have hdec := satCount_decrease F vs hF
      apply List.Pairwise.cons
      · intro d hd a hca
        have hda := satAll_sound vs (satCount (band F (bnot (satOne F vs))))
          (band F (bnot (satOne F vs))) le_rfl d hd a
        cases hdav : d a
        · rfl
        · have := hda hdav
          simp only [band, bnot, Bool.and_eq_true, Bool.not_eq_true'] at this
          rw [hca] at this
          exact Bool.noConfusion this.2
      · exact ih (band F (bnot (satOne F vs))) (by omega)
    · rw [if_neg hF]
      exact List.Pairwise.nil

theorem cubeOf_depends {n : Nat} (vs : List (Fin n)) (σ : Assignment n) :
    DependsOnlyOn (cubeOf vs σ) vs := by
  intro a b hab
  apply decide_eq_decide.mpr
  constructor
  · intro h u hu
    rw [← hab u hu]
    exact h u hu
  · intro h u hu
    rw [hab u hu]
    exact h u hu

theorem DependsOnlyOn.band {n : Nat} {F G : BFunc n} {vs : List (Fin n)}
    (hF : DependsOnlyOn F vs) (hG : DependsOnlyOn G vs) :
    DependsOnlyOn (BDDStrategy.band F G) vs := by
  intro a b hab
  show (F a && G a) = (F b && G b)
  rw [hF a b hab, hG a b hab]

theorem DependsOnlyOn.bnot {n : Nat} {F : BFunc n} {vs : List (Fin n)}
    (hF : DependsOnlyOn F vs) : DependsOnlyOn (BDDStrategy.bnot F) vs := by
  intro a b hab
  show (!(F a)) = (!(F b))
  rw [hF a b hab]

/-- When `F` depends only on `vs`, every cube produced by `satAll F vs` is a
single total assignment over `vs`. -/
theorem satAll_cubes {n : Nat} (vs : List (Fin n)) :
    ∀ (k : Nat) (F : BFunc n), satCount F ≤ k → DependsOnlyOn F vs →
    ∀ c ∈ satAll F vs, IsCubeOver c vs := by
  intro k
  induction k with
  | zero =>
    intro F hk hdep c hc
    rw [satAll_eq] at hc
    by_cases hF : nonFalse F = true
    · exfalso
      have := satCount_pos F hF
      omega
    · rw [if_neg hF] at hc
      exact absurd hc (List.not_mem_nil c)
  | succ k ih =>
    intro F hk hdep c hc
    rw [satAll_eq] at hc
    by_cases hF : nonFalse F = true
    · rw [if_pos hF] at hc
      rcases List.mem_cons.mp hc with hceq | hcmem
      · subst hceq
        exact satOne_cube F vs hF hdep
      · have hdec := satCount_decrease F vs hF
        obtain ⟨σ, hσ⟩ := satOne_structure vs F
        have hdep' : DependsOnlyOn (band F (bnot (satOne F vs))) vs := by
          rw [hσ]
          exact hdep.band (DependsOnlyOn.bnot (hdep.band (cubeOf_depends vs σ)))
        exact ih (band F (bnot (satOne F vs))) (by omega) hdep' c hcmem
    · rw [if_neg hF] at hc
      exact absurd hc (List.not_mem_nil c)

theorem normPat_eq_of_agree {n : Nat} (vs : List (Fin n)) {a b : Assignment n}
    (h : agreeOn vs a b) : normPat vs a = normPat vs b := by
  funext v
  by_cases hv : v ∈ vs
  · simp [normPat, hv, h v hv]
  · simp [normPat, hv]

/-- The length of the enumeration is bounded by the number of realized
`vs`-patterns: each iteration removes all assignments with the pattern of
the cube it just produced. -/
theorem satAll_length_le_patSet {n : Nat} (vs : List (Fin n)) :
    ∀ (k : Nat) (F : BFunc n), satCount F ≤ k →
    (satAll F vs).length ≤ (patSet F vs).card := by
  intro k
  induction k with
  | zero =>
    intro F hk
    rw [satAll_eq]
    by_cases hF : nonFalse F = true
    · exfalso
      have := satCount_pos F hF
      omega
    · rw [if_neg hF]
      simp
  | succ k ih =>
    intro F hk
    rw [satAll_eq]
    by_cases hF : nonFalse F = true
    · rw [if_pos hF]
      obtain ⟨σ, hσ⟩ := satOne_structure vs F
      have hdec := satCount_decrease F vs hF
      have htail := ih (band F (bnot (satOne F vs))) (by omega)
      have hp_mem : normPat vs σ ∈ patSet F vs := by
        obtain ⟨a0, ha0⟩ := nonFalse_iff.mp (satOne_nonFalse vs F hF)
        rw [hσ] at ha0
        simp only [band, Bool.and_eq_true, cubeOf, decide_eq_true_eq] at ha0
        apply Finset.mem_image.mpr
        exact ⟨a0, by simp [Finset.mem_filter, ha0.1], normPat_eq_of_agree vs ha0.2⟩
      have hp_not : normPat vs σ ∉ patSet (band F (bnot (satOne F vs))) vs := by
        intro hmem
        obtain ⟨b, hb, hbeq⟩ := Finset.mem_image.mp hmem
        simp only [Finset.mem_filter, Finset.mem_univ, true_and] at hb
        rw [hσ] at hb
        simp only [band, bnot, cubeOf, Bool.and_eq_true, Bool.not_eq_true'] at hb
        obtain ⟨hFb, hfalse⟩ := hb
        rw [hFb] at hfalse
        simp only [Bool.true_and, decide_eq_false_iff_not] at hfalse
        apply hfalse
        intro u hu
        have hbu := congrFun hbeq u
        simp only [normPat, if_pos hu] at hbu
        exact hbu
      have hsub : patSet (band F (bnot (satOne F vs))) vs ⊆ patSet F vs := by
        intro p hp
        obtain ⟨b, hb, hbeq⟩ := Finset.mem_image.mp hp
        simp only [Finset.mem_filter, Finset.mem_univ, true_and] at hb
        simp only [band, Bool.and_eq_true] at hb
        exact Finset.mem_image.mpr ⟨b, by simp [Finset.mem_filter, hb.1], hbeq⟩
      have hins : insert (normPat vs σ) (patSet (band F (bnot (satOne F vs))) vs) ⊆
          patSet F vs := by
        intro p hp
        rcases Finset.mem_insert.mp hp with hpeq | hp'
        · rw [hpeq]
          exact hp_mem
        · exact hsub hp'
      have hcard := Finset.card_le_card hins
      rw [Finset.card_insert_of_not_mem hp_not] at hcard
      simp only [List.length_cons]
      omega
    · rw [if_neg hF]
      simp

/-- There are at most `2 ^ |vs|` distinct `vs`-patterns. -/
theorem patSet_card_le {n : Nat} (F : BFunc n) (vs : List (Fin n)) :
    (patSet F vs).card ≤ 2 ^ vs.length := by
  have h1 : (patSet F vs).card ≤ Fintype.card ({ v // v ∈ vs.toFinset } → Bool) := by
    rw [← Finset.card_univ]
    apply Finset.card_le_card_of_injOn
      (fun a => fun u : { v // v ∈ vs.toFinset } => a u.1)
    · intro a _
      exact Finset.mem_univ _
    · intro a ha b hb heq
      simp only [patSet, Finset.coe_image, Set.mem_image] at ha hb
      obtain ⟨a0, _, ha0⟩ := ha
      obtain ⟨b0, _, hb0⟩ := hb
      funext v
      by_cases hv : v ∈ vs
      · exact congrFun heq ⟨v, List.mem_toFinset.mpr hv⟩
      · rw [← ha0, ← hb0]
        simp [normPat, hv]
  have h2 : Fintype.card ({ v // v ∈ vs.toFinset } → Bool) = 2 ^ vs.toFinset.card := by
    rw [Fintype.card_fun, Fintype.card_coe]
    rfl
  rw [h2] at h1
  exact le_trans h1 (Nat.pow_le_pow_right (by omega) vs.toFinset_card_le)

/-- When `F` depends only on `vs`, the projection onto `vs` is `F` itself. -/
theorem projectOnto_eq {n : Nat} (F : BFunc n) (vs : List (Fin n))
    (hdep : DependsOnlyOn F vs) : projectOnto F vs = F := by
  funext a
  cases hFa : F a
  · apply decide_eq_false
    rintro ⟨b, hab, hFb⟩
    rw [hdep b a hab, hFa] at hFb
    exact Bool.noConfusion hFb
  · apply decide_eq_true
    exact ⟨a, fun u hu => rfl, hFa⟩

/-- Pairwise-disjoint non-false functions are pairwise distinct. -/
theorem pairwise_ne_of_disjoint {n : Nat} :
    ∀ l : List (BFunc n),
    List.Pairwise (fun c d => ∀ a, c a = true → d a = false) l →
    (∀ c ∈ l, nonFalse c = true) →
    List.Pairwise (fun c d => c ≠ d) l := by
  intro l
  induction l with
  | nil =>
    intro _ _
    exact List.Pairwise.nil
  | cons c rest ih =>
    intro hpw hnf
    rcases List.pairwise_cons.mp hpw with ⟨hhead, htail⟩
    apply List.pairwise_cons.mpr
    refine ⟨?_, ih htail (fun d hd => hnf d (List.mem_cons_of_mem c hd))⟩
    intro d hd heq
    obtain ⟨a, ha⟩ := nonFalse_iff.mp (hnf c (List.mem_cons_self c rest))
    have hda := hhead d hd a ha
    rw [← heq, ha] at hda
    exact Bool.noConfusion hda

/-! ### Claim C1 -/

/-- Claim C1 (amended): for every Boolean function `F` that is not
identically false and every ordered variable list `vs` containing every
variable `F` depends on, `satOne F vs` returns a cube — a single total
assignment over `vs` — that is non-false and implies `F`.  (Without the
support condition the non-false and implication parts still hold, but the
result need not be a cube over `vs`; see the counterexample.) -/
theorem satOne_spec {n : Nat} (F : BFunc n) (vs : List (Fin n))
    (hF : nonFalse F = true) (hdep : DependsOnlyOn F vs) :
    nonFalse (satOne F vs) = true
    ∧ (∀ a, satOne F vs a = true → F a = true)
    ∧ IsCubeOver (satOne F vs) vs :=
  ⟨satOne_nonFalse vs F hF, satOne_implies vs F, satOne_cube F vs hF hdep⟩

/-- Witness for C1 at `F = bvar 0`, `vs = [0]` over one variable. -/
theorem satOne_spec_witness :
    nonFalse (bvar (0 : Fin 1)) = true
    ∧ DependsOnlyOn (bvar (0 : Fin 1)) [(0 : Fin 1)]
    ∧ (nonFalse (satOne (bvar (0 : Fin 1)) [(0 : Fin 1)]) = true
        ∧ (∀ a, satOne (bvar (0 : Fin 1)) [(0 : Fin 1)] a = true → bvar (0 : Fin 1) a = true)
        ∧ IsCubeOver (satOne (bvar (0 : Fin 1)) [(0 : Fin 1)]) [(0 : Fin 1)]) :=
  ⟨by decide, by decide, satOne_spec (bvar (0 : Fin 1)) [(0 : Fin 1)] (by decide) (by decide)⟩

/-- Counterexample to C1 as stated: with `F = bvar 0` (non-false) over two
variables and `vs = [1]`, which does not cover the support of `F`, the
returned function `bvar 0 && !(bvar 1)` is not a single total assignment
over `vs` (it constrains variable `0` as well). -/
theorem satOne_spec_counterexample :
    nonFalse (bvar (0 : Fin 2)) = true
    ∧ ¬ IsCubeOver (satOne (bvar (0 : Fin 2)) [(1 : Fin 2)]) [(1 : Fin 2)] :=
  ⟨by decide, by decide⟩

/-! ### Claim C2 -/

/-- Claim C2 (amended): for every Boolean function `F` and variable list
`vs` such that `F` depends only on the variables of `vs`, the sequence of
cubes produced by `satAll F vs` is finite (a list) of length at most
`2 ^ |vs|`, its elements are pairwise distinct total assignments over `vs`,
and their disjunction is semantically equal to the `vs`-support projection
of `F`.  (Without the support condition the length bound and pairwise
distinctness still hold and the disjunction equals `F` itself, but the
elements need not be total assignments over `vs` and the disjunction can
differ from the projection; see the counterexample.) -/
theorem satAll_spec {n : Nat} (F : BFunc n) (vs : List (Fin n))
    (hdep : DependsOnlyOn F vs) :
    (satAll F vs).length ≤ 2 ^ vs.length
    ∧ List.Pairwise (fun c d => c ≠ d) (satAll F vs)
    ∧ (∀ c ∈ satAll F vs, IsCubeOver c vs)
    ∧ bigOr (satAll F vs) = projectOnto F vs := by
  refine ⟨?_, ?_, ?_, ?_⟩
  · exact le_trans (satAll_length_le_patSet vs (satCount F) F le_rfl) (patSet_card_le F vs)
  · exact pairwise_ne_of_disjoint (satAll F vs)
      (satAll_pairwise vs (satCount F) F le_rfl)
      (satAll_nonFalse vs (satCount F) F le_rfl)
  · exact satAll_cubes vs (satCount F) F le_rfl hdep
  · rw [bigOr_satAll vs (satCount F) F le_rfl, projectOnto_eq F vs hdep]

/-- Witness for C2 at `F = bvar 0`, `vs = [0]` over one variable. -/
theorem satAll_spec_witness :
    DependsOnlyOn (bvar (0 : Fin 1)) [(0 : Fin 1)]
    ∧ ((satAll (bvar (0 : Fin 1)) [(0 : Fin 1)]).length ≤ 2 ^ ([(0 : Fin 1)]).length
        ∧ List.Pairwise (fun c d => c ≠ d) (satAll (bvar (0 : Fin 1)) [(0 : Fin 1)])
        ∧ (∀ c ∈ satAll (bvar (0 : Fin 1)) [(0 : Fin 1)], IsCubeOver c [(0 : Fin 1)])
        ∧ bigOr (satAll (bvar (0 : Fin 1)) [(0 : Fin 1)]) =
            projectOnto (bvar (0 : Fin 1)) [(0 : Fin 1)]) :=
  ⟨by decide, satAll_spec (bvar (0 : Fin 1)) [(0 : Fin 1)] (by decide)⟩

/-- Counterexample to C2 as stated: with `F = bvar 0` over two variables
and `vs = [1]` (which does not cover the support of `F`), the disjunction
of the produced cubes is `bvar 0`, not the `vs`-support projection of `F`
(which is the constant-true function). -/
theorem satAll_spec_counterexample :
    ¬ (bigOr (satAll (bvar (0 : Fin 2)) [(1 : Fin 2)]) =
        projectOnto (bvar (0 : Fin 2)) [(1 : Fin 2)]) := by decide

/-! ### Claim C10 -/

/-- Claim C10: on the empty variable list, `satAll` yields exactly one cube
(the trivial cube: `satOne F [] = F`, no literal is conjoined) when `F` is
non-false, and yields nothing when `F` is false; the enumeration terminates
in both cases (`satAll` is a total function into lists). -/
theorem satAll_empty_vars {n : Nat} (F : BFunc n) :
    (nonFalse F = true → satAll F [] = [F])
    ∧ (nonFalse F = false → satAll F [] = []) := by
  constructor
  · intro hF
    rw [satAll_eq, if_pos hF]
    have hone : satOne F [] = F := rfl
    rw [hone]
    have hfalse : ¬ nonFalse (band F (bnot F)) = true := by
      rw [nonFalse_iff]
      rintro ⟨a, ha⟩
      cases hFa : F a <;> simp [band, bnot, hFa] at ha
    rw [satAll_eq, if_neg hfalse]
  · intro hF
    rw [satAll_eq, if_neg (by rw [hF]; exact Bool.false_ne_true)]

/-- Witness for C10: over one variable, `satAll btrue [] = [btrue]` and
`satAll bfalse [] = []`. -/
theorem satAll_empty_vars_witness :
    nonFalse (btrue : BFunc 1) = true
    ∧ satAll (btrue : BFunc 1) [] = [btrue]
    ∧ nonFalse (bfalse : BFunc 1) = false
    ∧ satAll (bfalse : BFunc 1) [] = [] :=
  ⟨by decide, (satAll_empty_vars (btrue : BFunc 1)).1 (by decide),
    by decide, (satAll_empty_vars (bfalse : BFunc 1)).2 (by decide)⟩

/-! ### Lemmas about the justice-index encoding -/

theorem binLenFuel_le_iff :
    ∀ (fuel jx k : Nat), jx ≤ fuel → (binLenFuel fuel jx ≤ k ↔ jx < 2 ^ k) := by
  intro fuel
  induction fuel with
  | zero =>
    intro jx k hj
    obtain rfl : jx = 0 := by omega
    simp only [binLenFuel]
    constructor
    · intro _
      exact Nat.pow_pos (by omega)
    · intro _
      exact Nat.zero_le k
  | succ fuel ih =>
    intro jx k hj
    by_cases hj0 : jx = 0
    · subst hj0
      simp only [binLenFuel, if_pos rfl]
      constructor
      · intro _
        exact Nat.pow_pos (by omega)
      · intro _
        exact Nat.zero_le k
    · rw [binLenFuel, if_neg hj0]
      cases k with
      | zero =>
        rw [Nat.pow_zero]
        constructor
        · intro h
          omega
        · intro h
          omega
      | succ k2 =>
        have hdiv : jx / 2 < jx := Nat.div_lt_self (by omega) (by omega)
        have hrec := ih (jx / 2) k2 (by omega)
        have hps : 2 ^ (k2 + 1) = 2 * 2 ^ k2 := by rw [Nat.pow_succ]; ring
        have hdm := Nat.div_add_mod jx 2
        have hmod : jx % 2 < 2 := Nat.mod_lt jx (by omega)
        constructor
        · intro h
          have h2 := hrec.mp (by omega)
          omega
        · intro h
          have h2 := hrec.mpr (by omega)
          omega

/-- Python's zero-padded binary rendering of `jx` fits in width `k` (no
overflow past the pad) exactly when `jx < 2 ^ k`, for `k ≥ 1`. -/
theorem pyBinLen_le_iff (jx k : Nat) (hk : 1 ≤ k) : pyBinLen jx ≤ k ↔ jx < 2 ^ k := by
  rw [pyBinLen]
  by_cases h0 : jx = 0
  · subst h0
    rw [if_pos rfl]
    constructor
    · intro _
      exact Nat.pow_pos (by omega)
    · intro _
      exact hk
  · rw [if_neg h0]
    exact binLenFuel_le_iff jx jx k le_rfl

theorem pyBits_length (k jx : Nat) : (pyBits k jx).length = max k (pyBinLen jx) := by
  simp [pyBits]

theorem pyBits_get? (k jx i : Nat) (hi : i < max k (pyBinLen jx)) :
    (pyBits k jx).get? i = some (pyBit jx i) := by
  rw [pyBits, List.get?_map, List.get?_range hi]
  rfl

/-- Invariant of the encoding loop when the variable list is long enough:
the loop succeeds and returns the accumulator conjoined with one literal
per bit, the literal at offset `j` forcing `jx_vars[i+j]` to `bits[j]`. -/
theorem jxLoop_ok {n : Nat} (jxVars : List (Fin n)) :
    ∀ (bits : List Bool) (i : Nat) (acc : BFunc n), i + bits.length ≤ jxVars.length →
    ∃ C, jxLoop jxVars bits i acc = .ok C
      ∧ ∀ a, (C a = true ↔ (acc a = true ∧
          ∀ j, j < bits.length → Option.map a (jxVars.get? (i + j)) = bits.get? j)) := by
  intro bits
  induction bits with
  | nil =>
    intro i acc hle
    refine ⟨acc, rfl, fun a => ?_⟩
    simp
  | cons b rest ih =>
    intro i acc hle
    have hi : i < jxVars.length := by
      simp only [List.length_cons] at hle
      omega
    have hlen : (i + 1) + rest.length ≤ jxVars.length := by
      simp only [List.length_cons] at hle
      omega
    obtain ⟨C, hC, hiff⟩ := ih (i + 1)
      (band acc (if b then bvar (jxVars.get ⟨i, hi⟩) else bnot (bvar (jxVars.get ⟨i, hi⟩)))) hlen
    refine ⟨C, ?_, ?_⟩
    · rw [jxLoop, List.get?_eq_get hi]
      exact hC
    · intro a
      rw [hiff a]
      simp only [band, Bool.and_eq_true]
      constructor
      · rintro ⟨⟨hacc, hlit⟩, hrest⟩
        refine ⟨hacc, ?_⟩
        intro j hj
        cases j with
        | zero =>
          rw [Nat.add_zero, List.get?_eq_get hi]
          show some (a (jxVars.get ⟨i, hi⟩)) = some b
          cases b
          · have hlit2 : (!(a (jxVars.get ⟨i, hi⟩))) = true := hlit
            simp only [Bool.not_eq_true'] at hlit2
            rw [hlit2]
          · have hlit2 : a (jxVars.get ⟨i, hi⟩) = true := hlit
            rw [hlit2]
        | succ j2 =>
          have hj2 : j2 < rest.length := by
            simp only [List.length_cons] at hj
            omega
          have h2 := hrest j2 hj2
          rw [show i + (j2 + 1) = (i + 1) + j2 from by omega]
          exact h2
      · rintro ⟨hacc, hall⟩
        have hlit0 := hall 0 (by simp only [List.length_cons]; omega)
        rw [Nat.add_zero, List.get?_eq_get hi] at hlit0
        refine ⟨⟨hacc, ?_⟩, ?_⟩
        · have hab : a (jxVars.get ⟨i, hi⟩) = b := by
            have hsome : some (a (jxVars.get ⟨i, hi⟩)) = some b := hlit0
            exact Option.some.inj hsome
          cases b
          · show (!(a (jxVars.get ⟨i, hi⟩))) = true
            simp only [Bool.not_eq_true']
            exact hab
          · show a (jxVars.get ⟨i, hi⟩) = true
            exact hab
        · intro j hj
          have := hall (j + 1) (by simp only [List.length_cons]; omega)
          rw [show i + (j + 1) = (i + 1) + j from by omega] at this
          exact this

/-- When the bit string is longer than the variable list, the loop walks
past the end of `jx_vars` and raises `IndexError`. -/
theorem jxLoop_err {n : Nat} (jxVars : List (Fin n)) :
    ∀ (bits : List Bool) (i : Nat) (acc : BFunc n),
    i ≤ jxVars.length → jxVars.length < i + bits.length →
    jxLoop jxVars bits i acc = .error .indexError := by
  intro bits
  induction bits with
  | nil =>
    intro i acc h1 h2
    exact absurd h2 (by simp only [List.length_nil]; omega)
  | cons b rest ih =>
    intro i acc h1 h2
    by_cases hi : i < jxVars.length
    · rw [jxLoop, List.get?_eq_get hi]
      exact ih (i + 1) _ (by omega) (by simp only [List.length_cons] at h2; omega)
    · have hge : jxVars.length ≤ i := by omega
      rw [jxLoop, List.get?_eq_none.mpr hge]

/-- Decoding is left inverse to binary encoding: a bit list that agrees
with the binary representation of `jx` (LSB first) on every position has
value `jx`, provided `jx` fits in the list's width. -/
theorem bitsVal_eq :
    ∀ (bs : List Bool) (jx : Nat), jx < 2 ^ bs.length →
    (∀ j, j < bs.length → bs.get? j = some (pyBit jx j)) → bitsVal bs = jx := by
  intro bs
  induction bs with
  | nil =>
    intro jx h _
    rw [List.length_nil, Nat.pow_zero] at h
    simp only [bitsVal]
    omega
  | cons b rest ih =>
    intro jx h hbits
    have hb : b = pyBit jx 0 := by
      have h0 := hbits 0 (by simp only [List.length_cons]; omega)
      exact Option.some.inj h0
    have hrest : ∀ j, j < rest.length → rest.get? j = some (pyBit (jx / 2) j) := by
      intro j hj
      have hsj := hbits (j + 1) (by simp only [List.length_cons]; omega)
      rw [show ((b :: rest).get? (j + 1)) = rest.get? j from rfl] at hsj
      rw [hsj]
      congr 1
      rw [pyBit, pyBit]
      have hdd : jx / 2 ^ (j + 1) = jx / 2 / 2 ^ j := by
        rw [Nat.div_div_eq_div_mul]
        congr 1
        rw [Nat.pow_succ]
        ring
      rw [hdd]
    have hjdiv : jx / 2 < 2 ^ rest.length := by
      rw [List.length_cons, Nat.pow_succ] at h
      have hdm := Nat.div_add_mod jx 2
      have hmod : jx % 2 < 2 := Nat.mod_lt jx (by omega)
      omega
    have hv := ih (jx / 2) hjdiv hrest
    rw [bitsVal, hv, hb]
    simp only [pyBit, Nat.pow_zero, Nat.div_one]
    have hdm := Nat.div_add_mod jx 2
    rcases Nat.mod_two_eq_zero_or_one jx with hm | hm
    · simp only [hm]
      norm_num
      omega
    · simp only [hm]
      norm_num
      omega

/-! ### Claim C4 -/

/-- Claim C4 (amended): for a justice-bit vector of length `k ≥ 1` and every
`jx < 2 ^ k`, `getJxBDD` builds the cube forcing, for every `i < k`, the
justice variable at index `i` to bit `i` of the binary representation of
`jx` (least significant bit first), and decoding any satisfying assignment
of the cube under that mapping yields `jx` again.  (For `k = 0` the claim
fails: Python renders `0` as the one-character string `"0"`, so even
`getJxBDD(0)` walks past the empty justice-bit vector and raises
`IndexError`; see the counterexample.) -/
theorem getJxBDD_encodes {n : Nat} (jxVars : List (Fin n)) (jx : Nat)
    (hk : 1 ≤ jxVars.length) (hjx : jx < 2 ^ jxVars.length) :
    ∃ C, getJxBDD jxVars jx = .ok C
      ∧ (∀ a, (C a = true ↔
          ∀ i, i < jxVars.length → Option.map a (jxVars.get? i) = some (pyBit jx i)))
      ∧ (∀ a, C a = true → decodeJx jxVars a = jx) := by
  have hlen : pyBinLen jx ≤ jxVars.length := (pyBinLen_le_iff jx _ hk).mpr hjx
  have hmax : max jxVars.length (pyBinLen jx) = jxVars.length := Nat.max_eq_left hlen
  have hbitslen : (pyBits jxVars.length jx).length = jxVars.length := by
    rw [pyBits_length, hmax]
  obtain ⟨C, hC, hiff⟩ := jxLoop_ok jxVars (pyBits jxVars.length jx) 0 btrue
    (by rw [hbitslen]; omega)
  have hchar : ∀ a, (C a = true ↔
      ∀ i, i < jxVars.length → Option.map a (jxVars.get? i) = some (pyBit jx i)) := by
    intro a
    rw [hiff a]
    have hbt : (btrue : BFunc n) a = true := rfl
    simp only [hbt, true_and]
    constructor
    · intro hall i hi
      have := hall i (by rw [hbitslen]; exact hi)
      rw [Nat.zero_add] at this
      rw [this, pyBits_get? _ _ i (by rw [hmax]; exact hi)]
    · intro hall j hj
      rw [hbitslen] at hj
      rw [Nat.zero_add, pyBits_get? _ _ j (by rw [hmax]; exact hj)]
      exact hall j hj
  refine ⟨C, hC, hchar, ?_⟩
  intro a hCa
  rw [decodeJx]
  apply bitsVal_eq (jxVars.map a) jx
  · rw [List.length_map]
    exact hjx
  · intro j hj
    rw [List.length_map] at hj
    rw [List.get?_map]
    exact (hchar a).mp hCa j hj

/-- Witness for C4: two justice bits on variables 0 and 1, `jx = 2`
(bits LSB-first: 0, 1). -/
theorem getJxBDD_encodes_witness :
    1 ≤ ([(0 : Fin 2), (1 : Fin 2)]).length
    ∧ 2 < 2 ^ ([(0 : Fin 2), (1 : Fin 2)]).length
    ∧ ∃ C, getJxBDD [(0 : Fin 2), (1 : Fin 2)] 2 = .ok C
      ∧ (∀ a, (C a = true ↔
          ∀ i, i < ([(0 : Fin 2), (1 : Fin 2)]).length →
            Option.map a (([(0 : Fin 2), (1 : Fin 2)]).get? i) = some (pyBit 2 i)))
      ∧ (∀ a, C a = true → decodeJx [(0 : Fin 2), (1 : Fin 2)] a = 2) :=
  ⟨by decide, by decide, getJxBDD_encodes [(0 : Fin 2), (1 : Fin 2)] 2 (by decide) (by decide)⟩

/-- Counterexample to C4 as stated: with an empty justice-bit vector
(`k = 0`) the index `jx = 0` lies in `[0, 2^0)`, yet no cube is built —
the code raises `IndexError` because Python renders `0` as `"0"` (one
character) and the loop immediately reads `jx_vars[0]` of an empty list. -/
theorem getJxBDD_encodes_counterexample :
    (0 : Nat) < 2 ^ (([] : List (Fin 1)).length)
    ∧ getJxBDD ([] : List (Fin 1)) 0 = .error .indexError :=
  ⟨by decide, by decide⟩

/-! ### Claim C7 -/

/-- Claim C7 (amended): for every non-negative integer `jx` whose rendered
binary representation (Python renders `0` as one character) needs more bits
than the justice-bit vector holds, `getJxBDD` fails with an uncaught
`IndexError` from the out-of-range access `self.jx_vars[i]` — not with an
`InvalidJusticeIndexError`, which does not exist in the code (the safety
check is an unimplemented TODO). -/
theorem getJxBDD_overflow {n : Nat} (jxVars : List (Fin n)) (jx : Nat)
    (h : jxVars.length < pyBinLen jx) :
    getJxBDD jxVars jx = .error .indexError := by
  rw [getJxBDD]
  apply jxLoop_err
  · exact Nat.zero_le _
  · rw [pyBits_length, Nat.max_eq_right (Nat.le_of_lt h)]
    omega

/-- Witness for C7: one justice bit, `jx = 4` needs three bits. -/
theorem getJxBDD_overflow_witness :
    ([(0 : Fin 1)]).length < pyBinLen 4
    ∧ getJxBDD [(0 : Fin 1)] 4 = .error .indexError :=
  ⟨by decide, getJxBDD_overflow [(0 : Fin 1)] 4 (by decide)⟩

/-- Counterexample to C7 as stated: `jx = 2` needs two bits but the
justice-bit vector holds one; the call raises `IndexError`, which is not
the `InvalidJusticeIndexError` the claim names. -/
theorem getJxBDD_overflow_counterexample :
    getJxBDD [(0 : Fin 1)] 2 = .error .indexError
    ∧ getJxBDD [(0 : Fin 1)] 2 ≠ .error .invalidJusticeIndexError
    ∧ PyExc.indexError ≠ PyExc.invalidJusticeIndexError :=
  ⟨by decide, by decide, by decide⟩

/-! ### Claim C3 -/

/-- Claim C3: for every machine, state cube and justice index whose cube is
defined, the results of `getTransitions` for phases `Y` and `Z` are disjoint
(their conjunction is the false function) and their disjunction is
`Relation AND stateCube AND justiceCube` with no phase literal applied. -/
theorem getTransitions_phase {n : Nat} {σ : Type} (M : BDDMachine n σ)
    (stateF : BFunc n) (jx : Nat) (J : BFunc n)
    (hJ : getJxBDD M.jx_vars jx = .ok J) :
    (getTransitions M stateF jx phaseY).1 =
      .ok (some (band (band (band M.strategy stateF) J) (bnot (bvar M.strat_type_var))))
    ∧ (getTransitions M stateF jx phaseZ).1 =
      .ok (some (band (band (band M.strategy stateF) J) (bvar M.strat_type_var)))
    ∧ band (band (band (band M.strategy stateF) J) (bnot (bvar M.strat_type_var)))
        (band (band (band M.strategy stateF) J) (bvar M.strat_type_var)) = bfalse
    ∧ bor (band (band (band M.strategy stateF) J) (bnot (bvar M.strat_type_var)))
        (band (band (band M.strategy stateF) J) (bvar M.strat_type_var))
      = band (band M.strategy stateF) J := by
  refine ⟨?_, ?_, ?_, ?_⟩
  · rw [getTransitions, if_pos (show phaseY = "Y" from rfl), hJ]
  · rw [getTransitions, if_neg (show ¬ phaseZ = "Y" by decide),
      if_pos (show phaseZ = "Z" from rfl), hJ]
  · funext a
    simp only [band, bnot, bvar, bfalse]
    cases a M.strat_type_var <;> cases M.strategy a <;> cases stateF a <;> cases J a <;> rfl
  · funext a
    simp only [band, bnot, bvar, bor]
    cases a M.strat_type_var <;> cases M.strategy a <;> cases stateF a <;> cases J a <;> rfl

/-- Witness for C3 on `exMachine` with `jx = 0`. -/
theorem getTransitions_phase_witness :
    getJxBDD exMachine.jx_vars 0 = .ok exJ
    ∧ ((getTransitions exMachine btrue 0 phaseY).1 =
        .ok (some (band (band (band exMachine.strategy btrue) exJ)
          (bnot (bvar exMachine.strat_type_var))))
      ∧ (getTransitions exMachine btrue 0 phaseZ).1 =
        .ok (some (band (band (band exMachine.strategy btrue) exJ)
          (bvar exMachine.strat_type_var)))
      ∧ band (band (band (band exMachine.strategy btrue) exJ)
            (bnot (bvar exMachine.strat_type_var)))
          (band (band (band exMachine.strategy btrue) exJ)
            (bvar exMachine.strat_type_var)) = bfalse
      ∧ bor (band (band (band exMachine.strategy btrue) exJ)
            (bnot (bvar exMachine.strat_type_var)))
          (band (band (band exMachine.strategy btrue) exJ)
            (bvar exMachine.strat_type_var))
        = band (band exMachine.strategy btrue) exJ) :=
  ⟨by decide, getTransitions_phase exMachine btrue 0 exJ (by decide)⟩

/-! ### Claim C6 -/

/-- Claim C6 (amended): for every machine state, state cube, justice index
and phase token other than `Y` and `Z`, `getTransitions` prints a message
and returns `None` — it does not raise any exception — and performs no
mutation of the object's cached state (the machine, including its
`StateCollection` and loaded relation, is returned unchanged; the body of
the Python method assigns to no attribute of `self`). -/
theorem getTransitions_invalid_phase {n : Nat} {σ : Type} (M : BDDMachine n σ)
    (stateF : BFunc n) (jx : Nat) (strat_type : String)
    (hY : ¬ strat_type = "Y") (hZ : ¬ strat_type = "Z") :
    getTransitions M stateF jx strat_type = (.ok none, M) := by
  rw [getTransitions, if_neg hY, if_neg hZ]

/-- Witness for C6 at the invalid phase token `Q` on `exMachine`. -/
theorem getTransitions_invalid_phase_witness :
    (¬ phaseQ = "Y")
    ∧ (¬ phaseQ = "Z")
    ∧ (getTransitions exMachine btrue 0 phaseQ).1 = .ok none
    ∧ (getTransitions exMachine btrue 0 phaseQ).2 = exMachine := by
  have h := getTransitions_invalid_phase exMachine btrue 0 phaseQ (by decide) (by decide)
  exact ⟨by decide, by decide, by rw [h], by rw [h]⟩

/-- Counterexample to C6 as stated: `getTransitions(s, 0, "Q")` returns the
ordinary value `None`; it does not fail with an `InvalidPhaseError` (no such
exception class exists in the code). -/
theorem getTransitions_invalid_phase_counterexample :
    (getTransitions exMachine btrue 0 phaseQ).1 = .ok none
    ∧ (getTransitions exMachine btrue 0 phaseQ).1 ≠ .error .invalidPhaseError :=
  ⟨by decide, by decide⟩

/-! ### Claim C8 -/

theorem foldl_bor_true_iff {n : Nat} :
    ∀ (cs : List (BFunc n)) (c : BFunc n) (a : Assignment n),
    ((cs.foldl bor c) a = true ↔ (c a = true ∨ ∃ d ∈ cs, d a = true)) := by
  intro cs
  induction cs with
  | nil =>
    intro c a
    simp
  | cons d rest ih =>
    intro c a
    rw [List.foldl_cons, ih]
    simp only [bor, Bool.or_eq_true, List.mem_cons]
    constructor
    · rintro ((hc | hd) | ⟨e, he, hea⟩)
      · exact Or.inl hc
      · exact Or.inr ⟨d, Or.inl rfl, hd⟩
      · exact Or.inr ⟨e, Or.inr he, hea⟩
    · rintro (hc | ⟨e, he | he, hea⟩)
      · exact Or.inl (Or.inl hc)
      · subst he
        exact Or.inl (Or.inr hea)
      · exact Or.inr ⟨e, he, hea⟩

/-- Claim C8 (amended): on the empty state list, `stateListToBDD` fails —
but with the `TypeError` that Python 2's `reduce` raises on an empty
sequence with no initial value, not with an `EmptyInputError` (no such
exception class exists in the code); on every non-empty state list it
returns the disjunction of the per-state cubes. -/
theorem stateListToBDD_spec {n : Nat} {σ : Type} (stateToBDD : σ → BFunc n)
    (state_list : List σ) :
    (state_list = [] → stateListToBDD stateToBDD state_list = .error .typeError)
    ∧ (state_list ≠ [] → ∃ G, stateListToBDD stateToBDD state_list = .ok G
        ∧ ∀ a, (G a = true ↔ ∃ s ∈ state_list, stateToBDD s a = true)) := by
  constructor
  · intro h
    subst h
    rfl
  · intro h
    cases state_list with
    | nil => exact absurd rfl h
    | cons s rest =>
      refine ⟨(rest.map stateToBDD).foldl bor (stateToBDD s), rfl, ?_⟩
      intro a
      rw [foldl_bor_true_iff]
      constructor
      · rintro (hs | ⟨d, hd, hda⟩)
        · exact ⟨s, List.mem_cons_self s rest, hs⟩
        · obtain ⟨t, ht, rfl⟩ := List.mem_map.mp hd
          exact ⟨t, List.mem_cons_of_mem s ht, hda⟩
      · rintro ⟨t, ht, hta⟩
        rcases List.mem_cons.mp ht with rfl | ht2
        · exact Or.inl hta
        · exact Or.inr ⟨stateToBDD t, List.mem_map_of_mem stateToBDD ht2, hta⟩

/-- Witness for C8: a one-element state list over one variable. -/
theorem stateListToBDD_spec_witness :
    ([()] : List Unit) ≠ []
    ∧ ∃ G, stateListToBDD (fun _ : Unit => bvar (0 : Fin 1)) [()] = .ok G
        ∧ ∀ a, (G a = true ↔
            ∃ s ∈ ([()] : List Unit), (fun _ : Unit => bvar (0 : Fin 1)) s a = true) :=
  ⟨by decide, (stateListToBDD_spec (fun _ : Unit => bvar (0 : Fin 1)) [()]).2 (by decide)⟩

/-- Counterexample to C8 as stated: the empty state list produces the
`TypeError` of `reduce`, not an `EmptyInputError`. -/
theorem stateListToBDD_spec_counterexample :
    stateListToBDD (fun _ : Unit => bvar (0 : Fin 1)) [] = .error .typeError
    ∧ stateListToBDD (fun _ : Unit => bvar (0 : Fin 1)) [] ≠ .error .emptyInputError :=
  ⟨by decide, by decide⟩

/-! ### Claim C9 -/

theorem parseVarDefs_append_stop (bad : String) (post : List String)
    (hbad : matchVarDef bad = none) :
    ∀ pre : List String, parseVarDefs (pre ++ bad :: post) = parseVarDefs pre := by
  intro pre
  induction pre with
  | nil =>
    show parseVarDefs (bad :: post) = parseVarDefs []
    simp only [parseVarDefs, hbad]
  | cons l rest ih =>
    show parseVarDefs (l :: (rest ++ bad :: post)) = parseVarDefs (l :: rest)
    rw [parseVarDefs, parseVarDefs]
    cases hm : matchVarDef l with
    | none => rfl
    | some p =>
      obtain ⟨num, name⟩ := p
      show (num, rewriteBitName name) :: parseVarDefs (rest ++ bad :: post) =
        (num, rewriteBitName name) :: parseVarDefs rest
      rw [ih]

/-- Claim C9: variable-definition parsing stops at the first line that
fails to match the pattern (a blank line fails it, as the witness shows):
the parsed output of `pre ++ bad :: post` is that of `pre` alone — the
lines after the first non-matching one are never read, whatever they
contain. -/
theorem parseVarDefs_stops (pre : List String) (bad : String) (post post2 : List String)
    (hbad : matchVarDef bad = none) :
    parseVarDefs (pre ++ bad :: post) = parseVarDefs pre
    ∧ parseVarDefs (pre ++ bad :: post) = parseVarDefs (pre ++ bad :: post2) := by
  refine ⟨parseVarDefs_append_stop bad post hbad pre, ?_⟩
  rw [parseVarDefs_append_stop bad post hbad pre, parseVarDefs_append_stop bad post2 hbad pre]

/-- Witness for C9: a metadata section with two valid lines, a blank line,
then another valid-looking line; parsing stops at the blank line. -/
theorem parseVarDefs_stops_witness :
    matchVarDef blankLine = none
    ∧ parseVarDefs ([exLine0] ++ blankLine :: [exLine1]) = parseVarDefs [exLine0]
    ∧ parseVarDefs ([exLine0] ++ blankLine :: [exLine1]) =
        parseVarDefs ([exLine0] ++ blankLine :: [])
    ∧ parseVarDefs [exLine0, blankLine, exLine1] = [(0, "p")]
    ∧ (matchVarDef exLine1).isSome = true := by
  have h := parseVarDefs_stops [exLine0] blankLine [exLine1] [] (by decide)
  exact ⟨by decide, h.1, h.2, by decide, by decide⟩

/-! ### Claim C5 -/

/-- Claim C5 (code demonstration): when no line of the input starts with
`# Variable names:`, the header-seek loop of `loadFromFile` never exits:
`readline` returns the empty string on every call past end-of-stream, the
guard `line.startswith("# Variable names:")` is false on every call, and
the loader hangs instead of failing with a `MalformedStrategyFileError`
(no such exception class exists in the code). -/
theorem loadFromFile_missing_header_hangs (lines : List String)
    (h : ∀ l ∈ lines, isHeaderLine l = false) :
    loadFromFileMeta lines = .hang
    ∧ ∀ i, isHeaderLine (readlineAt lines i) = false := by
  have hall : ∀ i, isHeaderLine (readlineAt lines i) = false := by
    intro i
    rw [readlineAt]
    cases hg : lines.get? i with
    | none => decide
    | some l =>
      have hl : l ∈ lines := List.get?_mem hg
      exact h l hl
  refine ⟨?_, hall⟩
  rw [loadFromFileMeta]
  have hfind : (List.range lines.length).find?
      (fun i => isHeaderLine (readlineAt lines i)) = none := by
    apply List.find?_eq_none.mpr
    intro i _
    rw [hall i]
    exact Bool.false_ne_true
  rw [hfind]

/-- Witness for C5: a one-line file without the metadata header; the model
records the hang, and the loop guard is false at an arbitrary later
`readline` call (here the 5th, already past end-of-stream). -/
theorem loadFromFile_missing_header_hangs_witness :
    loadFromFileMeta [exNoHeader] = LoadOutcome.hang
    ∧ isHeaderLine (readlineAt [exNoHeader] 5) = false := by
  have h := loadFromFile_missing_header_hangs [exNoHeader] (by decide)
  exact ⟨h.1, h.2 5⟩

end BDDStrategy
